import Mathlib

/-!
Shallow embedding of the `lz_eytzinger_tree` crate: an N-ary tree stored in a
flat array of optional values (Eytzinger / heap-style layout).  Definitions
mirror the Rust source (`src/lib.rs`, `src/eytzinger_index_calculator.rs`,
`src/entry/entry_mut.rs`, `src/traversal/walk.rs`, `src/depth_first_iter.rs`,
`src/traversal/breadth_first_iter.rs`).  Rust panics (assert/expect/unwrap)
are modelled as `none` results; machine `usize` arithmetic is modelled by
`Nat` (the quantities involved never overflow in the source's intended use).
-/

namespace Eytz

/-- Mirrors `EytzingerIndexCalculator::child_index` (without its
`assert!(child_offset < max_children_per_node)`; call sites that go through
the assertion model it explicitly): `parent * k + offset + 1`. -/
def child_index (k parent offset : Nat) : Nat :=
  parent * k + offset + 1

/-- Mirrors `EytzingerIndexCalculator::parent_index`: `None` for the root,
otherwise `(child - 1) / k`. -/
def parent_index (k child : Nat) : Option Nat :=
  if child = 0 then none else some ((child - 1) / k)

/-- The tree: `nodes` is the `Vec<Option<N>>`, `max_children` the branching
factor stored in the `EytzingerIndexCalculator`, `len` the cached count. -/
structure EytzingerTree (N : Type) where
  nodes : List (Option N)
  max_children : Nat
  len : Nat
deriving DecidableEq

/-- Mirrors `EytzingerTree::new` (the raw construction `vec![None]`, branching
factor, `len = 0`); the `assert!(max_children_per_node > 0)` inside
`EytzingerIndexCalculator::new` is modelled by `new_checked`. -/
def EytzingerTree.new (N : Type) (k : Nat) : EytzingerTree N :=
  ⟨[none], k, 0⟩

/-- Mirrors `EytzingerTree::new` together with the assertion in
`EytzingerIndexCalculator::new`: constructing with branching factor 0
panics, modelled as `none`. -/
def new_checked (N : Type) (k : Nat) : Option (EytzingerTree N) :=
  if 0 < k then some (EytzingerTree.new N k) else none

namespace EytzingerTree

variable {N U : Type}

/-- Mirrors `EytzingerTree::node(index).is_some()`: the slot exists in the
vector and holds a value (`Some(Some(_)) = self.nodes.get(index)`). -/
def occupied (t : EytzingerTree N) (i : Nat) : Bool :=
  match t.nodes[i]? with
  | some (some _) => true
  | _ => false

/-- Mirrors `EytzingerTree::ensure_size`: grow the vector with `None` up to
length `index + 1` (`checked_sub` returning `None` = no growth, matching
truncated `Nat` subtraction). -/
def ensure_size (t : EytzingerTree N) (index : Nat) : EytzingerTree N :=
  { t with nodes := t.nodes ++ List.replicate ((index + 1) - t.nodes.length) none }

/-- Mirrors `EytzingerTree::set_value`: ensure capacity, `mem::replace` the
slot with `Some(new_value)`, increment `len` iff the old value was `None`.
(The returned `NodeMut` is just the index, which the caller already has.) -/
def set_value (t : EytzingerTree N) (index : Nat) (v : N) : EytzingerTree N :=
  let t1 := t.ensure_size index
  let old := t1.nodes.getD index none
  { t1 with nodes := t1.nodes.set index (some v),
            len := if old.isNone then t1.len + 1 else t1.len }

/-- Mirrors the idiom `self.nodes[index].take()` followed by
`if taken.is_some() { self.len -= 1 }` used by `remove` and `split_off`. -/
def take_dec (t : EytzingerTree N) (j : Nat) : Option N × EytzingerTree N :=
  let old := t.nodes.getD j none
  (old, { t with nodes := t.nodes.set j none,
                 len := if old.isSome then t.len - 1 else t.len })

/-- Mirrors `DepthFirstOrder` (`src/depth_first_order.rs`). -/
inductive DepthFirstOrder
  | preOrder
  | postOrder
deriving DecidableEq

/-- Occupied-subtree index list in pre-order, as produced by
`DepthFirstIter` with `PreOrder` started at node `i`: the node first, then
each child subtree in increasing offset order (vacant children contribute
nothing).  `fuel` bounds the recursion depth; `t.nodes.length` always
suffices because child indices strictly increase and occupied indices are
below `t.nodes.length`. -/
def dfsPre (t : EytzingerTree N) : Nat → Nat → List Nat
  | 0, _ => []
  | fuel + 1, i =>
    if t.occupied i then
      i :: ((List.range t.max_children).map
        (fun o => dfsPre t fuel (child_index t.max_children i o))).flatten
    else []

/-- Occupied-subtree index list in post-order, as produced by
`DepthFirstIter` with `PostOrder` started at node `i`: each child subtree
in increasing offset order, then the node itself. -/
def dfsPost (t : EytzingerTree N) : Nat → Nat → List Nat
  | 0, _ => []
  | fuel + 1, i =>
    if t.occupied i then
      ((List.range t.max_children).map
        (fun o => dfsPost t fuel (child_index t.max_children i o))).flatten ++ [i]
    else []

/-- Pre-order indices of the subtree at `i` (fuel instantiated). -/
def subtree_pre (t : EytzingerTree N) (i : Nat) : List Nat :=
  dfsPre t t.nodes.length i

/-- Post-order indices of the subtree at `i` (fuel instantiated). -/
def subtree_post (t : EytzingerTree N) (i : Nat) : List Nat :=
  dfsPost t t.nodes.length i

/-- Mirrors `EytzingerTree::remove` (src/lib.rs lines 222-248): bail out on
out-of-range or vacant index; otherwise collect the post-order subtree
indices **skipping the first one** (`.skip(1)` in the source), take the value
at `index` (decrementing `len` if it was occupied), then take each collected
index in turn. -/
def remove (t : EytzingerTree N) (index : Nat) : Option N × EytzingerTree N :=
  if t.nodes.length ≤ index then (none, t)
  else if t.occupied index then
    let indices_to_remove := (t.subtree_post index).drop 1
    let r := t.take_dec index
    (r.1, indices_to_remove.foldl (fun s j => (s.take_dec j).2) r.2)
  else (none, t)

/-- Mirrors `EytzingerTree::remove_root_value`: `truncate(1)`, reset `len`
to 0, then `self.nodes[0].take()` (returning the old root value and leaving
a vacant entry at index 0). -/
def remove_root_value (t : EytzingerTree N) : Option N × EytzingerTree N :=
  let t1 : EytzingerTree N := { t with nodes := t.nodes.take 1, len := 0 }
  (t1.nodes.getD 0 none, { t1 with nodes := t1.nodes.set 0 none })

/-- Mirrors `EytzingerTree::entry_mut` followed by `EntryMut::or_insert`
(entry/entry_mut.rs lines 125-130): an occupied entry returns its node
untouched; a vacant entry inserts via `VacantEntryMut::insert`, i.e.
`set_value`.  The returned `Nat` is the index of the resulting node. -/
def entry_or_insert (t : EytzingerTree N) (index : Nat) (v : N) :
    Nat × EytzingerTree N :=
  if t.occupied index then (index, t) else (index, t.set_value index v)

/-- Mirrors `EytzingerTree::entry_mut` followed by `EntryMut::remove`
(entry/entry_mut.rs lines 237-245): an occupied entry delegates to the
node's `remove` (the tree's cascading `remove`); a vacant entry returns
`(None, self)` with the tree untouched.  The returned `Nat` is the index of
the resulting vacant entry. -/
def entry_remove (t : EytzingerTree N) (index : Nat) :
    Option N × Nat × EytzingerTree N :=
  if t.occupied index then
    let r := t.remove index
    (r.1, index, r.2)
  else (none, index, t)

/-- Mirrors `EytzingerTree::map`: every `Some(value)` slot becomes
`Some(f(value))`, every `None` stays `None`; calculator and `len` are
carried over unchanged. -/
def map (t : EytzingerTree N) (f : N → U) : EytzingerTree U :=
  { nodes := t.nodes.map (Option.map f),
    max_children := t.max_children,
    len := t.len }

/-- Mirrors the inner `while current_parent <= previous_parent` loop of
`EytzingerTree::split_off` (src/lib.rs lines 286-293): ascend the
destination cursor (`new_node.to_parent()`, which fails when the cursor is
at the destination root or its parent slot is vacant — modelled as `none`
for the `.ok().expect(..)` panic) and replace `previous_parent` by its own
parent (`self.parent_index(previous_parent).unwrap()` — `none` models the
unwrap panic when `previous_parent` is 0).  Source and destination share the
same branching factor, so `nt.max_children` is the `k` of both. -/
def ascendGo (nt : EytzingerTree N) (cur_par : Nat) :
    Nat → Nat → Nat → Option (Nat × Nat)
  | _, _, 0 => none
  | dest, p, fuel + 1 =>
    if cur_par ≤ p then
      match parent_index nt.max_children dest with
      | none => none
      | some d2 =>
        if nt.occupied d2 then
          if p = 0 then none
          else ascendGo nt cur_par d2 ((p - 1) / nt.max_children) fuel
        else none
    else some (dest, p)

/-- Entry point of the ascent loop: `previous_parent` strictly decreases on
every iteration (its parent is `(p - 1) / k ≤ p - 1`), so fuel `p + 1` is
never exhausted and the `fuel = 0` branch is unreachable. -/
def ascend (nt : EytzingerTree N) (cur_par dest p : Nat) : Option (Nat × Nat) :=
  ascendGo nt cur_par dest p (p + 1)

/-- Mirrors one iteration of the `for index_to_move in indexes_to_move_iter`
loop of `EytzingerTree::split_off` (src/lib.rs lines 275-301).  State:
source tree, new tree, destination cursor index, last-seen source parent.
`none` models the panics: `take().expect(..)` on a vacant slot, the
`expect` on `parent_index` of a non-first root, the panics inside `ascend`,
and the `child_index` assertion for an offset `≥ k`. -/
def split_step (k : Nat)
    (st : EytzingerTree N × EytzingerTree N × Nat × Option Nat) (j : Nat) :
    Option (EytzingerTree N × EytzingerTree N × Nat × Option Nat) :=
  match st with
  | (t, nt, dest, prev) =>
    match t.nodes.getD j none with
    | none => none
    | some v =>
      let t2 := (t.take_dec j).2
      match parent_index k j with
      | none => none
      | some cur_par =>
        match (match prev with
               | none => some dest
               | some p => (ascend nt cur_par dest p).map (fun r => r.1)) with
        | none => none
        | some dest2 =>
          let off := j - child_index k cur_par 0
          if off < k then
            let c := child_index k dest2 off
            if nt.occupied c then some (t2, nt, c, some cur_par)
            else some (t2, nt.set_value c v, c, some cur_par)
          else none

/-- The `for index_to_move in indexes_to_move_iter` loop of `split_off`:
apply `split_step` to each remaining pre-order index in turn, propagating a
panic (`none`) from any iteration. -/
def split_fold (k : Nat) :
    List Nat → (EytzingerTree N × EytzingerTree N × Nat × Option Nat) →
    Option (EytzingerTree N × EytzingerTree N × Nat × Option Nat)
  | [], st => some st
  | j :: js, st =>
    match split_step k st j with
    | none => none
    | some st2 => split_fold k js st2

/-- Mirrors `EytzingerTree::split_off` (src/lib.rs lines 250-306): build a
new tree with the same branching factor (through the asserting constructor),
collect the pre-order indices of the subtree at `index` if occupied, move
the first value into the new root, then replay the remaining pre-order
indices through `split_step`.  A vacant `index` returns the empty new tree
with the source unchanged.  `none` models a panic. -/
def split_off (t : EytzingerTree N) (index : Nat) :
    Option (EytzingerTree N × EytzingerTree N) :=
  let k := t.max_children
  match new_checked N k with
  | none => none
  | some nt0 =>
    if t.occupied index then
      match t.subtree_pre index with
      | [] => some (t, nt0)
      | first :: rest =>
        match t.nodes.getD first none with
        | none => none
        | some v =>
          let t2 := (t.take_dec first).2
          let nt1 := nt0.set_value 0 v
          match split_fold k rest (t2, nt1, 0, parent_index k first) with
          | none => none
          | some (t3, nt2, _, _) => some (t3, nt2)
    else some (t, nt0)

/-- Mirrors `NodeChildIter::next` (src/node_child_iter.rs): scan offsets
from `off` upward, return the first occupied child index together with the
advanced offset; `none` once all `k` offsets are exhausted. -/
def childIterGo (t : EytzingerTree N) (node : Nat) : Nat → Nat → Option (Nat × Nat)
  | _, 0 => none
  | off, rem + 1 =>
    let c := child_index t.max_children node off
    if t.occupied c then some (c, off + 1)
    else childIterGo t node (off + 1) rem

/-- Entry point of the `NodeChildIter::next` scan: `rem = k - off` counts
the offsets still to try, so `rem = 0` is exactly the loop condition
`off < max_children_per_node` failing. -/
def childIterNext (t : EytzingerTree N) (node off : Nat) : Option (Nat × Nat) :=
  childIterGo t node off (t.max_children - off)

end EytzingerTree

/-- Mirrors `WalkAction` (src/traversal/walk.rs). -/
inductive WalkAction
  | stop
  | parent
  | child (offset : Nat)
deriving DecidableEq

namespace EytzingerTree

/-- Mirrors the loop of `Entry::walk` (src/traversal/walk.rs lines 26-54)
with the handler pre-scripted as the list of actions it returns on the
successive `on_node` calls (an exhausted script acts like `Stop`).  The
result is the list of entry indices the handler is shown, and `none` models
the `child_index` assertion panic on an offset `≥ k`.  Note the source's
`Parent` arm reads `self.parent()` — the parent of the walk's **starting**
entry — not the current entry's parent. -/
def walkAux (t : EytzingerTree N) (start : Nat) :
    Nat → List WalkAction → Option (List Nat)
  | cur, [] => some [cur]
  | cur, a :: rest =>
    match a with
    | .stop => some [cur]
    | .parent =>
      match parent_index t.max_children start with
      | some p =>
        if t.occupied p then (walkAux t start p rest).map (fun l => cur :: l)
        else some [cur]
      | none => some [cur]
    | .child o =>
      if t.occupied cur then
        if o < t.max_children then
          (walkAux t start (child_index t.max_children cur o) rest).map
            (fun l => cur :: l)
        else none
      else some [cur]

/-- Mirrors `Entry::walk` started on the entry at `start`. -/
def walk (t : EytzingerTree N) (start : Nat) (acts : List WalkAction) :
    Option (List Nat) :=
  walkAux t start start acts

/-- Mirrors `EntryMut::walk_mut` (src/traversal/walk.rs lines 114-157) with
a pre-scripted handler: `levels` counts how far below the starting entry the
cursor is; `Parent` at `levels = 0` stops the walk; `to_parent` failing (at
the tree root, or a vacant parent slot) stops; `Child` from a vacant entry
stops.  The first `on_mut_node` call in the source behaves exactly like the
loop body at `levels = 0`, so a single recursion models both. -/
def walkMutAux (t : EytzingerTree N) :
    Nat → Nat → List WalkAction → Option (List Nat)
  | cur, _, [] => some [cur]
  | cur, levels, a :: rest =>
    match a with
    | .stop => some [cur]
    | .parent =>
      if levels = 0 then some [cur]
      else
        match parent_index t.max_children cur with
        | none => some [cur]
        | some p =>
          if t.occupied p then
            (walkMutAux t p (levels - 1) rest).map (fun l => cur :: l)
          else some [cur]
    | .child o =>
      if t.occupied cur then
        if o < t.max_children then
          (walkMutAux t (child_index t.max_children cur o) (levels + 1) rest).map
            (fun l => cur :: l)
        else none
      else some [cur]

/-- Mirrors `EntryMut::walk_mut` started on the entry at `start`. -/
def walk_mut (t : EytzingerTree N) (start : Nat) (acts : List WalkAction) :
    Option (List Nat) :=
  walkMutAux t start 0 acts

end EytzingerTree

/-- State of `DepthFirstIter` (src/depth_first_iter.rs): the pending first
node and the stack of `NodeChildIter`s, each a (node index, child offset)
pair, topmost first. -/
structure DfsState where
  first_pending : Option Nat
  stack : List (Nat × Nat)
deriving DecidableEq

namespace EytzingerTree

/-- Mirrors the `while let Some(mut current) = self.nodes.pop()` loop of
`DepthFirstIter::next`: advance the top child iterator; on a child, push
the advanced iterator back, push the child's iterator, and in pre-order
yield the child; on exhaustion yield the node itself in post-order.  `fuel`
bounds the loop (any sufficiently large value gives the source behavior). -/
def dfsLoop (t : EytzingerTree N) (order : DepthFirstOrder) :
    List (Nat × Nat) → Nat → Option (Nat × List (Nat × Nat))
  | [], _ => none
  | _ :: _, 0 => none
  | (n, off) :: rest, fuel + 1 =>
    match childIterNext t n off with
    | some (c, off2) =>
      let stack2 := (c, 0) :: (n, off2) :: rest
      match order with
      | .preOrder => some (c, stack2)
      | .postOrder => dfsLoop t order stack2 fuel
    | none =>
      match order with
      | .postOrder => some (n, rest)
      | .preOrder => dfsLoop t order rest fuel

/-- Mirrors `DepthFirstIter::next` including the `first_pending` handling. -/
def dfsNext (t : EytzingerTree N) (order : DepthFirstOrder) (s : DfsState)
    (fuel : Nat) : Option (Nat × DfsState) :=
  match s.first_pending with
  | some n =>
    let stack := (n, 0) :: s.stack
    match order with
    | .preOrder => some (n, ⟨none, stack⟩)
    | .postOrder => (dfsLoop t order stack fuel).map (fun r => (r.1, ⟨none, r.2⟩))
  | none => (dfsLoop t order s.stack fuel).map (fun r => (r.1, ⟨none, r.2⟩))

/-- Repeated `DepthFirstIter::next` until it returns `None`, collecting the
yielded node indices. -/
def dfsRun (t : EytzingerTree N) (order : DepthFirstOrder) (loopFuel : Nat) :
    DfsState → Nat → List Nat
  | _, 0 => []
  | s, fuel + 1 =>
    match dfsNext t order s loopFuel with
    | none => []
    | some (i, s2) => i :: dfsRun t order loopFuel s2 fuel

/-- Mirrors `EytzingerTree::depth_first_iter(order)` run to exhaustion and
mapped through `value()`: the initial state has `first_pending = root()`
(the root node when index 0 is occupied) and an empty stack. -/
def depth_first_values (t : EytzingerTree N) (order : DepthFirstOrder)
    (loopFuel runFuel : Nat) : List (Option N) :=
  (dfsRun t order loopFuel ⟨if t.occupied 0 then some 0 else none, []⟩ runFuel).map
    (fun i => t.nodes.getD i none)

/-- Mirrors the `while let Some(mut current) = self.nodes.pop_front()` loop
of `BreadthFirstIter::next` (src/traversal/breadth_first_iter.rs): advance
the front child iterator; on a child, push the advanced iterator back on
the front and enqueue the child's iterator at the back, then continue; on
exhaustion, yield the iterator's own node. -/
def bfsNext (t : EytzingerTree N) :
    List (Nat × Nat) → Nat → Option (Nat × List (Nat × Nat))
  | [], _ => none
  | _ :: _, 0 => none
  | (n, off) :: rest, fuel + 1 =>
    match childIterNext t n off with
    | some (c, off2) => bfsNext t (((n, off2) :: rest) ++ [(c, 0)]) fuel
    | none => some (n, rest)

/-- Repeated `BreadthFirstIter::next` until it returns `None`. -/
def bfsRun (t : EytzingerTree N) (loopFuel : Nat) :
    List (Nat × Nat) → Nat → List Nat
  | _, 0 => []
  | q, fuel + 1 =>
    match bfsNext t q loopFuel with
    | none => []
    | some (i, q2) => i :: bfsRun t loopFuel q2 fuel

/-- Mirrors `EytzingerTree::breadth_first_iter()` run to exhaustion and
mapped through `value()`: the initial queue holds the root's child iterator
when the root is occupied (`BreadthFirstIter::new`). -/
def breadth_first_values (t : EytzingerTree N) (loopFuel runFuel : Nat) :
    List (Option N) :=
  (bfsRun t loopFuel (if t.occupied 0 then [(0, 0)] else []) runFuel).map
    (fun i => t.nodes.getD i none)

end EytzingerTree

/-- Number of `Some` slots of a slot list. -/
def countSome {N : Type} (l : List (Option N)) : Nat :=
  l.countP (fun x => x.isSome)

/-- Invariant I2 of the spec: the cached `len` equals the number of
occupied slots. -/
abbrev Inv {N : Type} (t : EytzingerTree N) : Prop :=
  t.len = countSome t.nodes

/-- Concrete tree: branching factor 2, root value 5 at index 0 with one
child value 2 at index 1 (offset 0), built through the public mutators. -/
def Tpair : EytzingerTree Nat :=
  ((EytzingerTree.new Nat 2).set_value 0 5).set_value 1 2

/-- Concrete tree: branching factor 2, root value 1 at index 0 with two
children, value 2 at index 1 and value 3 at index 2. -/
def Troot2 : EytzingerTree Nat :=
  (((EytzingerTree.new Nat 2).set_value 0 1).set_value 1 2).set_value 2 3

/-- Concrete tree of the crate's traversal tests: branching factor 2,
root=5, root.child0=2 (index 1), 2.child0=1 (index 3), 2.child1=4
(index 4), 4.child0=3 (index 9), root.child1=7 (index 2), 7.child1=8
(index 6), built in the same order as the test. -/
def Ttrav : EytzingerTree Nat :=
  ((((((((EytzingerTree.new Nat 2).set_value 0 5).set_value 1 2).set_value 3 1).set_value 4 4).set_value 9 3).set_value 2 7).set_value 6 8)

/-- Concrete tree of the crate's `split_off` test: branching factor 2,
root=10, root.child0=5 (index 1), 5.child0=4 (index 3), 4.child0=1
(index 7), 5.child1=8 (index 4). -/
def Tsplit : EytzingerTree Nat :=
  (((((EytzingerTree.new Nat 2).set_value 0 10).set_value 1 5).set_value 3 4).set_value 7 1).set_value 4 8

/-- Expected source tree after the test's `split_off` at index 1: only the
root value 10 remains. -/
def TsplitRem : EytzingerTree Nat :=
  ⟨[some 10, none, none, none, none, none, none, none], 2, 1⟩

/-- Expected split-off tree of the test: root 5, child0 4, child1 8,
4.child0 1. -/
def TsplitNew : EytzingerTree Nat :=
  ⟨[some 5, some 4, some 8, some 1], 2, 4⟩

end Eytz

namespace Eytz

/-- C4 helper fact: `(p * k + o) / k = p` when `o < k`. -/
theorem mul_add_div_eq (k p o : Nat) (ho : o < k) : (p * k + o) / k = p := by
  have hk : 0 < k := Nat.lt_of_le_of_lt (Nat.zero_le o) ho
  rw [Nat.mul_comm p k, Nat.add_comm, Nat.add_mul_div_left o p hk,
    Nat.div_eq_of_lt ho, Nat.zero_add]

/-- C4: for every branching factor `k ≥ 1`, parent index `p` and offsets
`o₁, o₂ < k`, `parent_index` inverts `child_index`
(`parent_index k (child_index k p o₁) = some p`), and `child_index` is
injective in the offset, so the `k` child indices of `p` are pairwise
distinct. -/
theorem claim_C4_index_bijection (k p o₁ o₂ : Nat) (hk : 1 ≤ k)
    (h1 : o₁ < k) (h2 : o₂ < k) :
    parent_index k (child_index k p o₁) = some p ∧
    (o₁ ≠ o₂ → child_index k p o₁ ≠ child_index k p o₂) := by
  constructor
  · have hne : child_index k p o₁ ≠ 0 := by
      simp [child_index]
    simp only [parent_index, child_index, if_neg hne]
    simp [mul_add_div_eq k p o₁ h1]
  · intro hne heq
    simp only [child_index] at heq
    exact hne (by omega)

/-- C4 witness: the theorem applied at `k = 2`, `p = 3`, offsets `1` and `0`. -/
theorem claim_C4_index_bijection_witness :
    parent_index 2 (child_index 2 3 1) = some 3 ∧
    (1 ≠ 0 → child_index 2 3 1 ≠ child_index 2 3 0) :=
  claim_C4_index_bijection 2 3 1 0 (by decide) (by decide) (by decide)

open EytzingerTree

/-- C1: the claim says `remove` clears every occupied descendant of the
removed index and decreases `len` by the occupied-subtree size.  The code
instead collects `PostOrder` indices with `.skip(1)`, which skips the first
post-order node (a deepest descendant) rather than the subtree root, so on
the two-node tree `Tpair` (root 5 at index 0, child 2 at index 1) removing
index 0 returns 5 but leaves the descendant at index 1 occupied and only
decrements `len` from 2 to 1. -/
theorem claim_C1_remove_leaves_descendant_occupied :
    Tpair.len = 2 ∧ Tpair.occupied 1 = true ∧
    parent_index Tpair.max_children 1 = some 0 ∧
    (Tpair.remove 0).1 = some 5 ∧
    occupied (Tpair.remove 0).2 1 = true ∧
    (Tpair.remove 0).2.len = 1 := by decide

/-- C2: the claim says `split_off` at any occupied index completes.  On
`Troot2` (root at index 0 with two occupied children at indices 1 and 2)
splitting off at the occupied root panics — the ascent loop evaluates
`self.parent_index(previous_parent).unwrap()` with `previous_parent = 0` —
modelled as `none`.  On the crate's own test tree `Tsplit`, splitting at
index 1 completes with exactly the expected remaining and split-off trees,
matching the test and validating the embedding. -/
theorem claim_C2_split_off_panics_at_root :
    Troot2.occupied 0 = true ∧
    Troot2.split_off 0 = none ∧
    Tsplit.split_off 1 = some (TsplitRem, TsplitNew) := by decide

/-- C3: the claim says no walk ever moves the cursor above its starting
node.  The mutable walk honors this (`walk_mut` on `Tpair` started at the
child index 1 stops on a `Parent` request, visiting only `[1]`), but the
immutable `Entry::walk` reads `self.parent()` — the starting entry's parent
— on every `Parent` action, so the same walk moves the cursor to index 0,
the starting node's real parent, and visits `[1, 0]`. -/
theorem claim_C3_walk_escapes_starting_node :
    parent_index Tpair.max_children 1 = some 0 ∧ Tpair.occupied 0 = true ∧
    walk Tpair 1 [.parent, .stop] = some [1, 0] ∧
    walk_mut Tpair 1 [.parent, .stop] = some [1] := by decide

/-- C6: on the crate's test tree (branching factor 2: root 5, children 2
and 7, grandchildren 1, 4, 8, great-grandchild 3), the depth-first
iterator yields values [5,2,1,4,3,7,8] in pre-order and [1,3,4,2,8,7,5] in
post-order, and the breadth-first iterator yields [5,2,7,1,4,8,3]. -/
theorem claim_C6_traversal_orders :
    depth_first_values Ttrav .preOrder 64 16 = [5, 2, 1, 4, 3, 7, 8].map some ∧
    depth_first_values Ttrav .postOrder 64 16 = [1, 3, 4, 2, 8, 7, 5].map some ∧
    breadth_first_values Ttrav 64 16 = [5, 2, 7, 1, 4, 8, 3].map some := by decide

/-- C8: `EntryMut::remove` on a vacant entry returns no value together with
a vacant entry at the same index and leaves the tree — all slots and
`len()` — completely unchanged. -/
theorem claim_C8_remove_vacant_noop (t : EytzingerTree N) (i : Nat)
    (h : t.occupied i = false) :
    entry_remove t i = (none, i, t) := by
  simp [entry_remove, h]

/-- C8 witness: the theorem applied to `Tpair` at the vacant index 2. -/
theorem claim_C8_remove_vacant_noop_witness :
    entry_remove Tpair 2 = (none, 2, Tpair) :=
  claim_C8_remove_vacant_noop Tpair 2 (by decide)

variable {N U : Type}

/-- Setting a slot changes `countP` by swapping the old element's
contribution for the new one's. -/
theorem countP_set_add (p : α → Bool) (l : List α) (i : Nat) (a d : α)
    (h : i < l.length) :
    (l.set i a).countP p + (if p (l.getD i d) then 1 else 0)
      = l.countP p + (if p a then 1 else 0) := by
  induction l generalizing i with
  | nil => simp at h
  | cons x xs ih =>
    cases i with
    | zero =>
      simp only [List.set_cons_zero, List.countP_cons, List.getD_cons_zero]
      omega
    | succ n =>
      have hn : n < xs.length := by simpa using h
      have := ih n hn
      simp only [List.set_cons_succ, List.countP_cons, List.getD_cons_succ]
      omega

/-- A replicated `none` block contributes nothing to `countSome`. -/
theorem countSome_append_replicate (l : List (Option N)) (n : Nat) :
    countSome (l ++ List.replicate n none) = countSome l := by
  simp only [countSome, List.countP_append]
  have : (List.replicate n (none : Option N)).countP (fun x => x.isSome) = 0 := by
    induction n with
    | zero => rfl
    | succ m ih => simpa [List.replicate_succ, List.countP_cons] using ih
  omega

/-- Reading a padded list below the pad boundary or anywhere at all gives
the same optional value as the unpadded list, because both the pad and the
out-of-range default are `none`. -/
theorem getD_append_replicate_none (l : List (Option N)) (m i : Nat) :
    (l ++ List.replicate m none).getD i none = l.getD i none := by
  induction l generalizing i with
  | nil =>
    simp only [List.nil_append]
    induction m generalizing i with
    | zero => rfl
    | succ n ih =>
      cases i with
      | zero => rfl
      | succ j => simpa [List.replicate_succ, List.getD_cons_succ] using ih j
  | cons x xs ih =>
    cases i with
    | zero => rfl
    | succ j => simpa [List.getD_cons_succ] using ih j

/-- Reading back the slot just set. -/
theorem getD_set_self (l : List α) (i : Nat) (a d : α) (h : i < l.length) :
    (l.set i a).getD i d = a := by
  induction l generalizing i with
  | nil => simp at h
  | cons x xs ih =>
    cases i with
    | zero => rfl
    | succ n =>
      have hn : n < xs.length := by simpa using h
      simpa [List.getD_cons_succ] using ih n hn

/-- Setting a slot beyond the end of the list is a no-op. -/
theorem set_out_of_range (l : List α) (i : Nat) (a : α) (h : l.length ≤ i) :
    l.set i a = l := by
  induction l generalizing i with
  | nil => rfl
  | cons x xs ih =>
    cases i with
    | zero => simp at h
    | succ n =>
      have hn : xs.length ≤ n := by simpa using h
      simp [List.set_cons_succ, ih n hn]

/-- Reading beyond the end of the list gives the default. -/
theorem getD_out_of_range (l : List α) (i : Nat) (d : α) (h : l.length ≤ i) :
    l.getD i d = d := by
  induction l generalizing i with
  | nil => cases i <;> rfl
  | cons x xs ih =>
    cases i with
    | zero => simp at h
    | succ n =>
      have hn : xs.length ≤ n := by simpa using h
      simpa [List.getD_cons_succ] using ih n hn

/-- The occupancy test agrees with reading the slot through `getD`. -/
theorem occupied_eq_isSome (t : EytzingerTree N) (i : Nat) :
    t.occupied i = (t.nodes.getD i none).isSome := by
  rw [List.getD_eq_getElem?_getD]
  cases h : t.nodes[i]? with
  | none => simp [occupied, h]
  | some x => cases x <;> simp [occupied, h]

/-- `set_value` preserves invariant I2 (`len` = number of occupied slots). -/
theorem Inv_set_value (t : EytzingerTree N) (i : Nat) (v : N) (h : Inv t) :
    Inv (t.set_value i v) := by
  simp only [Inv, set_value, ensure_size] at h ⊢
  set l1 := t.nodes ++ List.replicate ((i + 1) - t.nodes.length) none with hl1
  have hlen : i < l1.length := by
    rw [hl1]
    simp only [List.length_append, List.length_replicate]
    omega
  have hcount : countSome l1 = countSome t.nodes := countSome_append_replicate _ _
  have hkey := countP_set_add (fun x => Option.isSome x) l1 i (some v) none hlen
  simp only [countSome] at hcount h ⊢
  cases hold : l1.getD i none with
  | none =>
    rw [hold] at hkey
    simp at hkey ⊢
    omega
  | some w =>
    rw [hold] at hkey
    simp at hkey ⊢
    omega

/-- `take_dec` preserves invariant I2. -/
theorem Inv_take_dec (t : EytzingerTree N) (j : Nat) (h : Inv t) :
    Inv (t.take_dec j).2 := by
  simp only [Inv, take_dec] at h ⊢
  by_cases hj : j < t.nodes.length
  · have hkey := countP_set_add (fun x => Option.isSome x) t.nodes j none none hj
    simp only [countSome] at h ⊢
    cases hold : t.nodes.getD j none with
    | none =>
      rw [hold] at hkey
      simp at hkey ⊢
      omega
    | some w =>
      rw [hold] at hkey
      simp at hkey ⊢
      omega
  · have hle : t.nodes.length ≤ j := by omega
    rw [set_out_of_range _ _ _ hle, getD_out_of_range _ _ _ hle]
    simpa using h

/-- Folding `take_dec` over any index list preserves invariant I2. -/
theorem Inv_fold_take (l : List Nat) (t : EytzingerTree N) (h : Inv t) :
    Inv (l.foldl (fun s j => (s.take_dec j).2) t) := by
  induction l generalizing t with
  | nil => exact h
  | cons j js ih => exact ih _ (Inv_take_dec _ _ h)

/-- `remove` preserves invariant I2. -/
theorem Inv_remove (t : EytzingerTree N) (i : Nat) (h : Inv t) :
    Inv (t.remove i).2 := by
  simp only [remove]
  by_cases h1 : t.nodes.length ≤ i
  · simpa [h1] using h
  · simp only [h1, if_false]
    by_cases h2 : t.occupied i
    · simpa [h2] using Inv_fold_take _ _ (Inv_take_dec t i h)
    · simpa [h2] using h

/-- `remove_root_value` restores invariant I2 outright. -/
theorem Inv_remove_root_value (t : EytzingerTree N) :
    Inv t.remove_root_value.2 := by
  simp only [Inv, remove_root_value]
  cases t.nodes with
  | nil => rfl
  | cons x xs => rfl

/-- A freshly constructed tree satisfies invariant I2. -/
theorem Inv_new (k : Nat) : Inv (EytzingerTree.new N k) := rfl

/-- C7: `or_insert` on an occupied entry returns the handle at the same
index with the tree completely unchanged (the stored value is not replaced);
on a vacant entry it stores the value at that index (reading the slot back
yields it) and increments `len` by one. -/
theorem claim_C7_or_insert (t : EytzingerTree N) (i : Nat) (v : N) :
    (t.occupied i = true → entry_or_insert t i v = (i, t)) ∧
    (t.occupied i = false →
      (entry_or_insert t i v).2.nodes.getD i none = some v ∧
      (entry_or_insert t i v).2.len = t.len + 1) := by
  constructor
  · intro h
    simp [entry_or_insert, h]
  · intro h
    simp only [entry_or_insert, h, Bool.false_eq_true, if_false]
    simp only [set_value, ensure_size]
    set l1 := t.nodes ++ List.replicate ((i + 1) - t.nodes.length) none with hl1
    have hlen : i < l1.length := by
      rw [hl1]
      simp only [List.length_append, List.length_replicate]
      omega
    have hold : l1.getD i none = none := by
      rw [hl1, getD_append_replicate_none]
      have hocc := occupied_eq_isSome t i
      rw [h] at hocc
      cases hgd : t.nodes.getD i none with
      | none => rfl
      | some w => rw [hgd] at hocc; simp at hocc
    refine ⟨getD_set_self l1 i (some v) none hlen, ?_⟩
    rw [hold]
    simp

/-- C7 witness: the theorem applied to `Tpair` at the occupied index 0 and
the vacant index 2. -/
theorem claim_C7_or_insert_witness :
    entry_or_insert Tpair 0 9 = (0, Tpair) ∧
    ((entry_or_insert Tpair 2 9).2.nodes.getD 2 none = some 9 ∧
      (entry_or_insert Tpair 2 9).2.len = Tpair.len + 1) :=
  ⟨(claim_C7_or_insert Tpair 0 9).1 (by decide),
   (claim_C7_or_insert Tpair 2 9).2 (by decide)⟩

/-- C9: `map` keeps the branching factor and the cached `len`, and
transforms the slot sequence pointwise: every slot is `some (f v)` exactly
when the original slot is `some v` and vacant exactly when the original is
vacant (also beyond the stored length, where both read as vacant). -/
theorem claim_C9_map_preserves_structure (t : EytzingerTree N) (f : N → U) :
    (t.map f).max_children = t.max_children ∧
    (t.map f).len = t.len ∧
    ∀ i, (t.map f).nodes.getD i none = Option.map f (t.nodes.getD i none) := by
  refine ⟨rfl, rfl, fun i => ?_⟩
  simp only [map]
  rw [List.getD_eq_getElem?_getD, List.getD_eq_getElem?_getD, List.getElem?_map]
  cases t.nodes[i]? <;> rfl

/-- One `split_step` preserves any property of the source tree stable under
`take_dec` together with any property of the new tree stable under
`set_value`. -/
theorem split_step_pres (k : Nat)
    (P Q : EytzingerTree N → Prop)
    (hP : ∀ s j, P s → P (s.take_dec j).2)
    (hQ : ∀ s i v, Q s → Q (s.set_value i v))
    (st st2 : EytzingerTree N × EytzingerTree N × Nat × Option Nat) (j : Nat)
    (h : P st.1 ∧ Q st.2.1) (hs : split_step k st j = some st2) :
    P st2.1 ∧ Q st2.2.1 := by
  obtain ⟨t, nt, dest, prev⟩ := st
  simp only [split_step] at hs
  repeat' split at hs
  all_goals try exact Option.noConfusion hs
  all_goals cases hs
  all_goals exact ⟨hP t j h.1, by first | exact h.2 | exact hQ nt _ _ h.2⟩

/-- The `split_off` move loop preserves the paired properties of
`split_step_pres` along the whole remaining pre-order index list. -/
theorem split_fold_pres (k : Nat) (P Q : EytzingerTree N → Prop)
    (hP : ∀ s j, P s → P (s.take_dec j).2)
    (hQ : ∀ s i v, Q s → Q (s.set_value i v)) :
    ∀ (l : List Nat) st st2, (P st.1 ∧ Q st.2.1) → split_fold k l st = some st2 →
      P st2.1 ∧ Q st2.2.1 := by
  intro l
  induction l with
  | nil =>
    intro st st2 h hf
    cases hf
    exact h
  | cons j js ih =>
    intro st st2 h hf
    simp only [split_fold] at hf
    cases hstep : split_step k st j with
    | none => rw [hstep] at hf; exact Option.noConfusion hf
    | some st1 =>
      rw [hstep] at hf
      exact ih st1 st2 (split_step_pres k P Q hP hQ st st1 j h hstep) hf

/-- Any completed `split_off` preserves, on the source-side result, every
property stable under `take_dec`, and establishes, on the new tree, every
property of the freshly constructed tree stable under `set_value`. -/
theorem split_off_pres (t : EytzingerTree N) (i : Nat)
    (P Q : EytzingerTree N → Prop)
    (hP : ∀ s j, P s → P (s.take_dec j).2)
    (hQ : ∀ s i2 v, Q s → Q (s.set_value i2 v))
    (hPt : P t) (hQnew : Q (EytzingerTree.new N t.max_children))
    (t2 nt : EytzingerTree N) (hs : t.split_off i = some (t2, nt)) :
    P t2 ∧ Q nt := by
  simp only [split_off, new_checked] at hs
  repeat' split at hs
  all_goals try exact Option.noConfusion hs
  all_goals cases hs
  all_goals
    first
      | (rename_i heq
         refine ⟨hPt, ?_⟩
         by_cases hk : 0 < t.max_children
         · rw [if_pos hk] at heq
           cases heq
           exact hQnew
         · rw [if_neg hk] at heq
           exact Option.noConfusion heq)
      | (rename_i xa ntree hif hocc xb jfirst jrest hsub xc v hv xd c1 c2 heq
         by_cases hk : 0 < t.max_children
         · rw [if_pos hk] at hif
           cases hif
           exact split_fold_pres t.max_children P Q hP hQ jrest _ _
             ⟨hP t jfirst hPt, hQ _ 0 v hQnew⟩ heq
         · rw [if_neg hk] at hif
           exact Option.noConfusion hif)

/-- `entry_or_insert` preserves invariant I2. -/
theorem Inv_entry_or_insert (t : EytzingerTree N) (i : Nat) (v : N) (h : Inv t) :
    Inv (entry_or_insert t i v).2 := by
  simp only [entry_or_insert]
  split
  · exact h
  · exact Inv_set_value t i v h

/-- `entry_remove` preserves invariant I2. -/
theorem Inv_entry_remove (t : EytzingerTree N) (i : Nat) (h : Inv t) :
    Inv (entry_remove t i).2.2 := by
  simp only [entry_remove]
  split
  · exact Inv_remove t i h
  · exact h

/-- C5: the cached `len` always equals the number of `Some` slots — every
mutating operation of the public surface preserves the invariant, so
`len()` is never recomputed by scanning: `set_value` (also backing
`set_root_value` and entry insertion), `remove`, `remove_root_value`
(backing `clear`), `or_insert`, entry `remove`, and both trees produced by
a completed `split_off`. -/
theorem claim_C5_len_counts_occupied (t : EytzingerTree N) (i : Nat) (v : N)
    (h : Inv t) :
    Inv (t.set_value i v) ∧
    Inv (t.remove i).2 ∧
    Inv t.remove_root_value.2 ∧
    Inv (entry_or_insert t i v).2 ∧
    Inv (entry_remove t i).2.2 ∧
    (∀ t2 nt, t.split_off i = some (t2, nt) → Inv t2 ∧ Inv nt) :=
  ⟨Inv_set_value t i v h, Inv_remove t i h, Inv_remove_root_value t,
   Inv_entry_or_insert t i v h, Inv_entry_remove t i h,
   fun t2 nt hs =>
     split_off_pres t i Inv Inv Inv_take_dec Inv_set_value h
       (Inv_new t.max_children) t2 nt hs⟩

/-- C5 witness: the theorem applied to the concrete tree `Tpair`. -/
theorem claim_C5_len_counts_occupied_witness :
    Inv (Tpair.set_value 0 9) ∧
    Inv (Tpair.remove 0).2 ∧
    Inv Tpair.remove_root_value.2 ∧
    Inv (entry_or_insert Tpair 0 9).2 ∧
    Inv (entry_remove Tpair 0).2.2 ∧
    (∀ t2 nt, Tpair.split_off 0 = some (t2, nt) → Inv t2 ∧ Inv nt) :=
  claim_C5_len_counts_occupied Tpair 0 9 (by decide)

/-- `take_dec` keeps the branching factor. -/
theorem mc_take_dec (t : EytzingerTree N) (j : Nat) :
    ((t.take_dec j).2).max_children = t.max_children := rfl

/-- `set_value` keeps the branching factor. -/
theorem mc_set_value (t : EytzingerTree N) (i : Nat) (v : N) :
    (t.set_value i v).max_children = t.max_children := rfl

/-- Folding `take_dec` keeps the branching factor. -/
theorem mc_fold_take (l : List Nat) (t : EytzingerTree N) :
    (l.foldl (fun s j => (s.take_dec j).2) t).max_children = t.max_children := by
  induction l generalizing t with
  | nil => rfl
  | cons j js ih =>
    rw [List.foldl_cons]
    exact ih ((t.take_dec j).2)

/-- `remove` keeps the branching factor. -/
theorem mc_remove (t : EytzingerTree N) (i : Nat) :
    (t.remove i).2.max_children = t.max_children := by
  simp only [remove]
  split
  · rfl
  · split
    · exact mc_fold_take _ _
    · rfl

/-- `entry_or_insert` keeps the branching factor. -/
theorem mc_entry_or_insert (t : EytzingerTree N) (i : Nat) (v : N) :
    (entry_or_insert t i v).2.max_children = t.max_children := by
  simp only [entry_or_insert]
  split <;> rfl

/-- `entry_remove` keeps the branching factor. -/
theorem mc_entry_remove (t : EytzingerTree N) (i : Nat) :
    (entry_remove t i).2.2.max_children = t.max_children := by
  simp only [entry_remove]
  split
  · exact mc_remove t i
  · rfl

/-- C10: constructing a tree with branching factor 0 hits the
`assert!(max_children_per_node > 0)` before any tree is produced; any
`k ≥ 1` succeeds and yields `max_children_per_node() = k`; and every
operation of the public surface — `set_value`, `remove`,
`remove_root_value`, `or_insert`, entry `remove`, `map`, and both results
of a completed `split_off` — keeps the branching factor unchanged. -/
theorem claim_C10_branching_factor_fixed (k : Nat) (hk : 1 ≤ k)
    (t : EytzingerTree N) (i : Nat) (v : N) (f : N → N) :
    new_checked N 0 = none ∧
    new_checked N k = some (EytzingerTree.new N k) ∧
    (EytzingerTree.new N k).max_children = k ∧
    (t.set_value i v).max_children = t.max_children ∧
    (t.remove i).2.max_children = t.max_children ∧
    t.remove_root_value.2.max_children = t.max_children ∧
    (entry_or_insert t i v).2.max_children = t.max_children ∧
    (entry_remove t i).2.2.max_children = t.max_children ∧
    (t.map f).max_children = t.max_children ∧
    (∀ t2 nt, t.split_off i = some (t2, nt) →
      t2.max_children = t.max_children ∧ nt.max_children = t.max_children) := by
  refine ⟨by simp [new_checked], ?_, rfl, rfl, mc_remove t i, rfl,
    mc_entry_or_insert t i v, mc_entry_remove t i, rfl, fun t2 nt hs => ?_⟩
  · have hk0 : 0 < k := hk
    simp [new_checked, hk0]
  · exact split_off_pres t i
      (fun s => s.max_children = t.max_children)
      (fun s => s.max_children = t.max_children)
      (fun s j hps => (mc_take_dec s j).trans hps)
      (fun s i2 v2 hqs => (mc_set_value s i2 v2).trans hqs)
      rfl rfl t2 nt hs

/-- C10 witness: the theorem applied at `k = 5` to the concrete tree
`Tpair`. -/
theorem claim_C10_branching_factor_fixed_witness :
    new_checked Nat 0 = none ∧
    new_checked Nat 5 = some (EytzingerTree.new Nat 5) ∧
    (EytzingerTree.new Nat 5).max_children = 5 ∧
    (Tpair.set_value 0 7).max_children = Tpair.max_children ∧
    (Tpair.remove 0).2.max_children = Tpair.max_children ∧
    Tpair.remove_root_value.2.max_children = Tpair.max_children ∧
    (entry_or_insert Tpair 0 7).2.max_children = Tpair.max_children ∧
    (entry_remove Tpair 0).2.2.max_children = Tpair.max_children ∧
    (Tpair.map (fun x => x + 1)).max_children = Tpair.max_children ∧
    (∀ t2 nt, Tpair.split_off 0 = some (t2, nt) →
      t2.max_children = Tpair.max_children ∧ nt.max_children = Tpair.max_children) :=
  claim_C10_branching_factor_fixed 5 (by decide) Tpair 0 7 (fun x => x + 1)

end Eytz
